import Mathlib

/-!
Verification of the network Rate Sampler in
`packages/umbreld/source/modules/system/system-widgets.ts`.

The embedding models JavaScript strings as `List Char` (wrapped in `String`
at the API boundary, mirroring the TypeScript signatures) and JavaScript
numbers as exact rationals `ℚ`.  Timestamps (`Date.now()` milliseconds) are
modelled as `ℤ`.  The process-wide mutable `lastNetworkSample` variable is
modelled by explicit state passing: `getNetworkRates` takes the stored
sample and returns the updated one.  The fallible `fs.readFile` is modelled
by an `Option String` argument (`none` = the read threw).
-/

/-- Whitespace as used by JavaScript `String.prototype.trim` and the `/\s+/`
split in the source (restricted to the ASCII whitespace characters; the
Unicode space classes never occur in `/proc/net/dev`). -/
def isJsSpace (c : Char) : Bool :=
  c == ' ' || c == '\t' || c == '\n' || c == '\r' || c == '\x0b' || c == '\x0c'

/-- JavaScript `s.trim()` on a character list: drop whitespace from both ends. -/
def trimList (cs : List Char) : List Char :=
  ((cs.dropWhile isJsSpace).reverse.dropWhile isJsSpace).reverse

/-- JavaScript `s.split(sep)` generalised to a character predicate: cut the
list at every separator character, keeping empty chunks, e.g.
`split ':' "a:b" = ["a", "b"]`, `split ':' ":" = ["", ""]`, and
`split ':' "" = [""]`. -/
def splitOnPred (p : Char → Bool) : List Char → List (List Char)
  | [] => [[]]
  | c :: cs =>
    if p c then [] :: splitOnPred p cs
    else
      match splitOnPred p cs with
      | [] => [[c]]
      | h :: t => (c :: h) :: t

/-- JavaScript `rawData.trim().split(/\s+/)` applied to an already-trimmed
list `d`: the empty string yields `[""]`, otherwise the maximal runs of
non-whitespace characters. -/
def fieldsOf (d : List Char) : List (List Char) :=
  if d.isEmpty then [[]] else (splitOnPred isJsSpace d).filter (fun t => !t.isEmpty)

/-- Value of a list of decimal digit characters. -/
def digitsVal (ds : List Char) : ℕ :=
  ds.foldl (fun a c => a * 10 + (c.toNat - '0'.toNat)) 0

/-- The exponent part of a JavaScript numeric literal (the text after the
`e`/`E`): an optional sign followed by at least one digit. -/
def parseExp (cs : List Char) : Option ℤ :=
  match cs with
  | '+' :: r => if !r.isEmpty && r.all Char.isDigit then some ((digitsVal r : ℕ) : ℤ) else none
  | '-' :: r => if !r.isEmpty && r.all Char.isDigit then some (-((digitsVal r : ℕ) : ℤ)) else none
  | r => if !r.isEmpty && r.all Char.isDigit then some ((digitsVal r : ℕ) : ℤ) else none

/-- Scale a mantissa by a power of ten (exact rational arithmetic). -/
def applyExp (q : ℚ) (e : ℤ) : ℚ :=
  if 0 ≤ e then q * 10 ^ e.toNat else q / 10 ^ (-e).toNat

/-- The unsigned body of a JavaScript decimal numeric literal:
`digits`, `digits.digits`, `.digits`, each with an optional exponent.
Returns `none` where JavaScript `Number` yields `NaN`.  Non-finite values
are outside the exact-rational model: JavaScript returns `Infinity` for
the literal `Infinity` and for numerals that overflow the double range
(e.g. `1e309`), whereas here the former parses to `none` and the latter to
an exact rational, so no theorem below may rely on the value of such a
token beyond its sign (both `Infinity` and the exact rational are
non-negative).  Hex/octal/binary literals, which cannot occur in
`/proc/net/dev` fields, also parse to `none`. -/
def jsNumberBody (cs : List Char) : Option ℚ :=
  let ip := cs.takeWhile Char.isDigit
  match cs.dropWhile Char.isDigit with
  | [] => if ip.isEmpty then none else some (digitsVal ip)
  | '.' :: r2 =>
    let fp := r2.takeWhile Char.isDigit
    if ip.isEmpty && fp.isEmpty then none
    else
      let mant : ℚ := (digitsVal ip : ℚ) + (digitsVal fp : ℚ) / 10 ^ fp.length
      match r2.dropWhile Char.isDigit with
      | [] => some mant
      | 'e' :: r4 => (parseExp r4).map (applyExp mant)
      | 'E' :: r4 => (parseExp r4).map (applyExp mant)
      | _ => none
  | 'e' :: r4 => if ip.isEmpty then none else (parseExp r4).map (applyExp (digitsVal ip))
  | 'E' :: r4 => if ip.isEmpty then none else (parseExp r4).map (applyExp (digitsVal ip))
  | _ => none

/-- JavaScript `Number(s)` on a decimal string: trim, empty means `0`, then
an optionally signed decimal literal; `none` models `NaN`. -/
def jsNumber? (cs : List Char) : Option ℚ :=
  let t := trimList cs
  match t with
  | [] => some 0
  | '+' :: r => jsNumberBody r
  | '-' :: r => (jsNumberBody r).map Neg.neg
  | _ => jsNumberBody t

/-- The source's `Number(field) || 0`: a `NaN` parse contributes `0`
(`Number(x)` equal to `0` also yields `0`, so `getD 0` is exact). -/
def jsNumberOr0 (cs : List Char) : ℚ :=
  (jsNumber? cs).getD 0

/-- The source's `NETWORK_INTERFACE_EXCLUDES` regex list (anchored patterns
`^lo$`, `^br-`, `^docker`, `^services`, `^veth`): each anchored regex is an
exact-name or name-prefix test. -/
def NETWORK_INTERFACE_EXCLUDES : List (List Char → Bool) :=
  [fun n => n == "lo".data,
   fun n => "br-".data.isPrefixOf n,
   fun n => "docker".data.isPrefixOf n,
   fun n => "services".data.isPrefixOf n,
   fun n => "veth".data.isPrefixOf n]

/-- `isAllowedInterface` from the source: no exclusion pattern matches. -/
def isAllowedInterface (name : List Char) : Bool :=
  !(NETWORK_INTERFACE_EXCLUDES.any fun pattern => pattern name)

/-- Result record of `parseProcNetDev` (JavaScript numbers modelled as `ℚ`). -/
structure ProcNetDevTotals where
  rxBytes : ℚ
  txBytes : ℚ
deriving DecidableEq, Repr

/-- Body of the source's per-line processing after
`line.trim().split(':')`: destructuring `[rawName, rawData]` takes the
first two chunks; `if (!rawData) continue` skips a missing (no colon) or
empty second chunk; then the interface filter, the field split, the
9-field length guard, and the field 0 / field 8 contributions. -/
def contribOfParts : List (List Char) → ℚ × ℚ
  | rawName :: rawData :: _ =>
    if rawData.isEmpty then (0, 0)
    else
      let iface := trimList rawName
      if !(isAllowedInterface iface) then (0, 0)
      else
        let fields := fieldsOf (trimList rawData)
        if fields.length < 9 then (0, 0)
        else (jsNumberOr0 (fields.getD 0 []), jsNumberOr0 (fields.getD 8 []))
  | _ => (0, 0)

/-- Contribution of one line of the counter file to the running totals:
`(0, 0)` exactly when the source's loop body hits a `continue`. -/
def lineContrib (line : List Char) : ℚ × ℚ :=
  let t := trimList line
  if t.isEmpty then (0, 0)
  else contribOfParts (splitOnPred (fun c => c == ':') t)

/-- The source's `content.split('\n').slice(2)`. -/
def dataLines (content : String) : List (List Char) :=
  (splitOnPred (fun c => c == '\n') content.data).drop 2

/-- The source's accumulation loop over the data lines (`rxBytes += ...;
txBytes += ...`, skipped lines adding nothing). -/
def parseLines (lines : List (List Char)) : ProcNetDevTotals :=
  lines.foldl
    (fun acc line => ⟨acc.rxBytes + (lineContrib line).1, acc.txBytes + (lineContrib line).2⟩)
    ⟨0, 0⟩

/-- `parseProcNetDev` from the source. -/
def parseProcNetDev (content : String) : ProcNetDevTotals :=
  parseLines (dataLines content)

/-- The stored `NetworkSample` (`{rxBytes, txBytes, ts}`). -/
structure NetworkSample where
  rxBytes : ℚ
  txBytes : ℚ
  ts : ℤ
deriving DecidableEq, Repr

/-- The value returned by `getNetworkRates`. -/
structure NetworkRates where
  rxPerSec : ℚ
  txPerSec : ℚ
deriving DecidableEq, Repr

/-- Return value of one sampler invocation together with the new contents of
the module-level `lastNetworkSample` variable. -/
structure GetNetworkRatesResult where
  rates : NetworkRates
  lastNetworkSample : Option NetworkSample
deriving DecidableEq, Repr

/-- `getNetworkRates` from the source.  `readResult` is the outcome of
`fs.readFile('/proc/net/dev', 'utf8')` (`none` = the read threw, landing in
the `catch` branch), `now` is `Date.now()`, and `lastNetworkSample` is the
stored state.  The source's `!Number.isFinite(x)` clamp is vacuous over `ℚ`
(the `deltaSeconds > 0` guard already rules out division by zero), so only
the `x < 0` clamp remains. -/
def getNetworkRates (readResult : Option String) (now : ℤ)
    (lastNetworkSample : Option NetworkSample) : GetNetworkRatesResult :=
  match readResult with
  | none => ⟨⟨0, 0⟩, lastNetworkSample⟩
  | some content =>
    let parsed := parseProcNetDev content
    let rates : NetworkRates :=
      match lastNetworkSample with
      | none => ⟨0, 0⟩
      | some last =>
        let deltaSeconds : ℚ := ((now - last.ts : ℤ) : ℚ) / 1000
        if 0 < deltaSeconds then
          let rxPerSec := (parsed.rxBytes - last.rxBytes) / deltaSeconds
          let txPerSec := (parsed.txBytes - last.txBytes) / deltaSeconds
          ⟨if rxPerSec < 0 then 0 else rxPerSec, if txPerSec < 0 then 0 else txPerSec⟩
        else ⟨0, 0⟩
    ⟨rates, some ⟨parsed.rxBytes, parsed.txBytes, now⟩⟩

/-! ## Claim-side definitions

These definitions follow the words of the specification claims (not the
source); the refinement theorems below compare them with the source
embedding. -/

/-- The exclusion patterns exactly as the spec words them: exact name `lo`,
or a name prefixed with `br-`, `docker`, `services`, or `veth`. -/
def excludedNameB (name : List Char) : Bool :=
  name == "lo".data || "br-".data.isPrefixOf name || "docker".data.isPrefixOf name ||
    "services".data.isPrefixOf name || "veth".data.isPrefixOf name

/-- Claim side of C2: the fields of a line that is neither a header, nor
blank, nor colonless/empty-data, nor excluded by name, nor shorter than 9
fields — the lines whose field 0 / field 8 the claim says are summed. -/
def claimKeptFields (line : List Char) : Option (List (List Char)) :=
  let t := trimList line
  if t.isEmpty then none
  else
    match splitOnPred (fun c => c == ':') t with
    | rawName :: rawData :: _ =>
      if rawData.isEmpty then none
      else if excludedNameB (trimList rawName) then none
      else
        let fields := fieldsOf (trimList rawData)
        if fields.length < 9 then none else some fields
    | _ => none

/-- Claim side of C7 as stated: per-line processing that splits on the
*first* colon and takes the *whole* remainder of the line as the field
list. -/
def firstColonContrib (line : List Char) : ℚ × ℚ :=
  let t := trimList line
  if t.isEmpty then (0, 0)
  else
    let rawName := t.takeWhile (fun c => !(c == ':'))
    match t.dropWhile (fun c => !(c == ':')) with
    | [] => (0, 0)
    | _ :: rest =>
      let iface := trimList rawName
      if !(isAllowedInterface iface) then (0, 0)
      else
        let fields := fieldsOf (trimList rest)
        if fields.length < 9 then (0, 0)
        else (jsNumberOr0 (fields.getD 0 []), jsNumberOr0 (fields.getD 8 []))

/-- Parser variant built from `firstColonContrib` (claim C7 as stated). -/
def parseBySplitFirstColon (content : String) : ProcNetDevTotals :=
  (dataLines content).foldl
    (fun acc line =>
      ⟨acc.rxBytes + (firstColonContrib line).1, acc.txBytes + (firstColonContrib line).2⟩)
    ⟨0, 0⟩

/-- Claim side of C7 as amended: the interface name is the segment before
the first colon and the field list is the segment strictly between the
first and second colons; a line with no colon or an empty such segment is
skipped. -/
def colonSegmentContrib (line : List Char) : ℚ × ℚ :=
  let t := trimList line
  if t.isEmpty then (0, 0)
  else
    let rawName := t.takeWhile (fun c => !(c == ':'))
    match t.dropWhile (fun c => !(c == ':')) with
    | [] => (0, 0)
    | _ :: rest =>
      let seg := rest.takeWhile (fun c => !(c == ':'))
      if seg.isEmpty then (0, 0)
      else
        let iface := trimList rawName
        if !(isAllowedInterface iface) then (0, 0)
        else
          let fields := fieldsOf (trimList seg)
          if fields.length < 9 then (0, 0)
          else (jsNumberOr0 (fields.getD 0 []), jsNumberOr0 (fields.getD 8 []))

/-- Parser variant built from `colonSegmentContrib` (claim C7 as amended). -/
def parseByColonSegments (content : String) : ProcNetDevTotals :=
  (dataLines content).foldl
    (fun acc line =>
      ⟨acc.rxBytes + (colonSegmentContrib line).1, acc.txBytes + (colonSegmentContrib line).2⟩)
    ⟨0, 0⟩

/-- Join field strings with single spaces, building the data portion of a
counter-file line (used to state the line-append property C10). -/
def joinSpace : List (List Char) → List Char
  | [] => []
  | [f] => f
  | f :: g :: t => f ++ ' ' :: joinSpace (g :: t)

/-! ## Rate Sampler theorems -/

attribute [local semireducible] Rat.add Rat.sub Rat.mul Rat.inv

/-- Claim C3: when the read of the counter source fails, the Rate Sampler
returns zero rates and leaves the stored Sample exactly as it was: no error
is propagated, and the prior Sample (whatever it was, including absent)
survives unchanged for the next call to diff against. -/
theorem getNetworkRates_read_failure_preserves_state (now : ℤ)
    (last : Option NetworkSample) :
    getNetworkRates none now last = ⟨⟨0, 0⟩, last⟩ := rfl

/-- Claim C4: a successful first invocation (no prior Sample stored) returns
zero rates regardless of the parsed counters and stores a Sample holding the
parsed `rxBytes`, `txBytes` and the current timestamp. -/
theorem getNetworkRates_first_call_zero (content : String) (now : ℤ) :
    getNetworkRates (some content) now none =
      ⟨⟨0, 0⟩,
       some ⟨(parseProcNetDev content).rxBytes, (parseProcNetDev content).txBytes, now⟩⟩ := rfl

/-- Claim C5: with a prior Sample stored and a successful read, a
non-positive time delta (`deltaSeconds ≤ 0`, i.e. the clock did not
advance) yields zero rates while the stored Sample is still replaced by the
current counters and timestamp. -/
theorem getNetworkRates_nonpositive_delta (content : String) (s : NetworkSample) (now : ℤ)
    (h : now ≤ s.ts) :
    getNetworkRates (some content) now (some s) =
      ⟨⟨0, 0⟩,
       some ⟨(parseProcNetDev content).rxBytes, (parseProcNetDev content).txBytes, now⟩⟩ := by
  have h2 : ((now - s.ts : ℤ) : ℚ) ≤ 0 := by exact_mod_cast (by omega : now - s.ts ≤ (0 : ℤ))
  have hΔ : ¬ (0 : ℚ) < ((now - s.ts : ℤ) : ℚ) / 1000 :=
    not_lt.2 (div_nonpos_iff.2 (Or.inr ⟨h2, by norm_num⟩))
  simp only [getNetworkRates, if_neg hΔ]

/-- Witness for C5 at a concrete input: two calls in the same millisecond
(`now = ts = 5`) give zero rates but refresh the stored Sample. -/
theorem getNetworkRates_nonpositive_delta_witness :
    getNetworkRates (some "a\nb") 5 (some ⟨7, 8, 5⟩) = ⟨⟨0, 0⟩, some ⟨0, 0, 5⟩⟩ := by
  have h := getNetworkRates_nonpositive_delta "a\nb" ⟨7, 8, 5⟩ 5 (le_refl 5)
  rw [h]
  decide

/-- Claim C1: with a prior Sample stored, a successful read, a positive time
delta, and counters that did not decrease, the sampler returns exactly
`(currentRx - priorRx) / Δt` and `(currentTx - priorTx) / Δt` where
`Δt = (now - prior.ts) / 1000` seconds. -/
theorem getNetworkRates_rate_of_counter_increase
    (content : String) (s : NetworkSample) (now : ℤ)
    (hts : s.ts < now)
    (hrx : s.rxBytes ≤ (parseProcNetDev content).rxBytes)
    (htx : s.txBytes ≤ (parseProcNetDev content).txBytes) :
    (getNetworkRates (some content) now (some s)).rates =
      ⟨((parseProcNetDev content).rxBytes - s.rxBytes) / (((now - s.ts : ℤ) : ℚ) / 1000),
       ((parseProcNetDev content).txBytes - s.txBytes) / (((now - s.ts : ℤ) : ℚ) / 1000)⟩ := by
  have h1 : (0 : ℚ) < ((now - s.ts : ℤ) : ℚ) := by
    exact_mod_cast (by omega : (0 : ℤ) < now - s.ts)
  have hΔ : (0 : ℚ) < ((now - s.ts : ℤ) : ℚ) / 1000 := div_pos h1 (by norm_num)
  have hrx' : 0 ≤ ((parseProcNetDev content).rxBytes - s.rxBytes) /
      (((now - s.ts : ℤ) : ℚ) / 1000) := div_nonneg (by linarith) hΔ.le
  have htx' : 0 ≤ ((parseProcNetDev content).txBytes - s.txBytes) /
      (((now - s.ts : ℤ) : ℚ) / 1000) := div_nonneg (by linarith) hΔ.le
  simp only [getNetworkRates, if_pos hΔ, if_neg (not_lt.2 hrx'), if_neg (not_lt.2 htx')]

/-- Witness for C1: the spec's worked example.  Prior Sample
`{rx=1000, tx=500, t=0ms}`, new read parsing to `{rx=3000, tx=500}` at
`t=2000ms`, gives `rxPerSec = 1000` and `txPerSec = 0`. -/
theorem getNetworkRates_rate_of_counter_increase_witness :
    (getNetworkRates (some "h1\nh2\neth0: 3000 0 0 0 0 0 0 0 500")
        2000 (some ⟨1000, 500, 0⟩)).rates = ⟨1000, 0⟩ := by
  have h := getNetworkRates_rate_of_counter_increase
    "h1\nh2\neth0: 3000 0 0 0 0 0 0 0 500" ⟨1000, 500, 0⟩ 2000
    (by decide) (by decide) (by decide)
  rw [h]
  decide

/-- Claim C6: over every input, state and timestamp, both returned rates are
non-negative (negative computed deltas are clamped to `0`; over the exact
rational model every value is finite, and the `deltaSeconds > 0` guard rules
out division by zero). -/
theorem getNetworkRates_rates_nonneg (readResult : Option String) (now : ℤ)
    (last : Option NetworkSample) :
    0 ≤ (getNetworkRates readResult now last).rates.rxPerSec ∧
    0 ≤ (getNetworkRates readResult now last).rates.txPerSec := by
  cases readResult with
  | none => exact ⟨le_refl 0, le_refl 0⟩
  | some content =>
    cases last with
    | none => exact ⟨le_refl 0, le_refl 0⟩
    | some s =>
      simp only [getNetworkRates]
      by_cases hΔ : (0 : ℚ) < ((now - s.ts : ℤ) : ℚ) / 1000
      · rw [if_pos hΔ]
        constructor
        · by_cases hneg :
            (parseProcNetDev content).rxBytes - s.rxBytes < 0 * (((now - s.ts : ℤ) : ℚ) / 1000)
          all_goals simp only []
          · rw [if_pos (by rw [div_lt_iff₀ hΔ]; simpa using hneg)]
          · rw [if_neg (by rw [div_lt_iff₀ hΔ]; simpa using hneg)]
            rw [le_div_iff₀ hΔ]
            simpa using not_lt.1 hneg
        · by_cases hneg :
            (parseProcNetDev content).txBytes - s.txBytes < 0 * (((now - s.ts : ℤ) : ℚ) / 1000)
          all_goals simp only []
          · rw [if_pos (by rw [div_lt_iff₀ hΔ]; simpa using hneg)]
          · rw [if_neg (by rw [div_lt_iff₀ hΔ]; simpa using hneg)]
            rw [le_div_iff₀ hΔ]
            simpa using not_lt.1 hneg
      · rw [if_neg hΔ]
        exact ⟨le_refl 0, le_refl 0⟩

/-! ## Parser theorems -/

/-- Claim C9: interface-name exclusion is case-sensitive.  Names differing
from the exclusion patterns only in letter case (`LO`, `Docker0`, `VETH1`,
and friends) are allowed, and a counter file whose data lines carry such
names has all of their field 0 / field 8 values included in the aggregate,
while the same file with lower-case names aggregates to zero. -/
theorem parseProcNetDev_case_sensitive_excludes :
    (["LO".data, "Lo".data, "lO".data, "Docker0".data, "DOCKER0".data, "VETH1".data,
        "Veth1".data, "BR-x".data, "Br-x".data, "Services1".data, "SERVICES".data].all
      isAllowedInterface) = true ∧
    parseProcNetDev
        "Inter\nface\nLO: 1 1 1 1 1 1 1 1 1\nDocker0: 2 2 2 2 2 2 2 2 2\nVETH1: 4 4 4 4 4 4 4 4 4\nBR-x: 8 8 8 8 8 8 8 8 8\nServices1: 16 16 16 16 16 16 16 16 16" =
      ⟨31, 31⟩ ∧
    parseProcNetDev
        "Inter\nface\nlo: 1 1 1 1 1 1 1 1 1\ndocker0: 2 2 2 2 2 2 2 2 2\nveth1: 4 4 4 4 4 4 4 4 4\nbr-x: 8 8 8 8 8 8 8 8 8\nservices1: 16 16 16 16 16 16 16 16 16" =
      ⟨0, 0⟩ := by
  refine ⟨by decide, by decide, by decide⟩

/-- Counterexample to claim C7 as stated: the source does not split each
line "on the first colon into an interface name and a field list".  It
calls `split(':')` and destructures the first two chunks, so the field list
of a line containing a second colon ends at that colon.  On the line
`e:1 2:3 4 5 6 7 8 9 10 11` the source sees only the two fields `1 2`
(fewer than 9, line skipped, totals `{0, 0}`) while splitting on the first
colon would see eleven fields and add `{1, 10}`. -/
theorem parseProcNetDev_first_colon_counterexample :
    parseProcNetDev "h\nh\ne:1 2:3 4 5 6 7 8 9 10 11" = ⟨0, 0⟩ ∧
    parseBySplitFirstColon "h\nh\ne:1 2:3 4 5 6 7 8 9 10 11" = ⟨1, 10⟩ ∧
    parseProcNetDev "h\nh\ne:1 2:3 4 5 6 7 8 9 10 11" ≠
      parseBySplitFirstColon "h\nh\ne:1 2:3 4 5 6 7 8 9 10 11" := by
  refine ⟨by decide, by decide, by decide⟩

/-- Counterexample to claim C8 as stated: the parser output is not `≥ 0`
for *every* input text.  A field token that is a negative numeral passes
`Number(field) || 0` with its negative value, so the aggregate can go
negative. -/
theorem parseProcNetDev_negative_counter_counterexample :
    parseProcNetDev "h\nh\nx: -5 0 0 0 0 0 0 0 0" = ⟨-5, 0⟩ ∧
    ¬ (0 : ℚ) ≤ (parseProcNetDev "h\nh\nx: -5 0 0 0 0 0 0 0 0").rxBytes := by
  refine ⟨by decide, by decide⟩

/-! ## Helper lemmas about the splitting primitives -/

theorem splitOnPred_ne_nil (p : Char → Bool) (cs : List Char) : splitOnPred p cs ≠ [] := by
  cases cs with
  | nil => simp [splitOnPred]
  | cons c cs =>
    by_cases h : p c
    · simp [splitOnPred, h]
    · simp only [splitOnPred, h, if_false]
      cases splitOnPred p cs <;> simp

theorem splitOnPred_all_false (p : Char → Bool) (cs : List Char)
    (h : ∀ c ∈ cs, p c = false) : splitOnPred p cs = [cs] := by
  induction cs with
  | nil => rfl
  | cons c cs ih =>
    have hc : p c = false := h c (List.mem_cons_self c cs)
    simp only [splitOnPred, hc, Bool.false_eq_true, if_false]
    rw [ih (fun x hx => h x (List.mem_cons_of_mem c hx))]

theorem splitOnPred_append_last (p : Char → Bool) (s : Char) (hs : p s = true)
    (bs : List Char) (hb : ∀ c ∈ bs, p c = false) :
    ∀ as : List Char, splitOnPred p (as ++ s :: bs) = splitOnPred p as ++ [bs] := by
  intro as
  induction as with
  | nil =>
    simp only [List.nil_append, splitOnPred, hs, if_true]
    rw [splitOnPred_all_false p bs hb]
    rfl
  | cons c cs ih =>
    by_cases hc : p c
    · simp only [List.cons_append, splitOnPred, hc, if_true, List.append_eq, ih]
    · simp only [List.cons_append, splitOnPred, hc, Bool.false_eq_true, if_false,
        List.append_eq, ih]
      cases hsp : splitOnPred p cs with
      | nil => exact absurd hsp (splitOnPred_ne_nil p cs)
      | cons h0 t0 => rfl

theorem splitOnPred_eq_cons (p : Char → Bool) (cs : List Char) :
    splitOnPred p cs =
      cs.takeWhile (fun c => !p c) ::
        (match cs.dropWhile (fun c => !p c) with
         | [] => []
         | _ :: r => splitOnPred p r) := by
  induction cs with
  | nil => rfl
  | cons c cs ih =>
    by_cases h : p c
    · simp [splitOnPred, h, List.takeWhile_cons, List.dropWhile_cons]
    · simp only [splitOnPred, h, Bool.false_eq_true, if_false, List.takeWhile_cons,
        List.dropWhile_cons, Bool.not_eq_true', Bool.not_eq_false]
      rw [ih]
      simp [h]

theorem mem_of_mem_splitOnPred (p : Char → Bool) :
    ∀ (cs : List Char), ∀ l ∈ splitOnPred p cs, ∀ c ∈ l, c ∈ cs := by
  intro cs
  induction cs with
  | nil =>
    intro l hl c hc
    simp [splitOnPred] at hl
    subst hl
    simp at hc
  | cons a cs ih =>
    intro l hl c hc
    by_cases h : p a
    · simp only [splitOnPred, h, if_true, List.mem_cons] at hl
      rcases hl with rfl | hl
      · simp at hc
      · exact List.mem_cons_of_mem a (ih l hl c hc)
    · simp only [splitOnPred, h, Bool.false_eq_true, if_false] at hl
      cases hsp : splitOnPred p cs with
      | nil => exact absurd hsp (splitOnPred_ne_nil p cs)
      | cons h0 t0 =>
        rw [hsp] at hl
        rcases List.mem_cons.1 hl with rfl | hl
        · rcases List.mem_cons.1 hc with rfl | hc
          · exact List.mem_cons_self c cs
          · exact List.mem_cons_of_mem a
              (ih h0 (hsp ▸ List.mem_cons_self h0 t0) c hc)
        · exact List.mem_cons_of_mem a
            (ih l (hsp ▸ List.mem_cons_of_mem h0 hl) c hc)

theorem mem_of_mem_trimList (cs : List Char) (c : Char) (h : c ∈ trimList cs) : c ∈ cs := by
  unfold trimList at h
  rw [List.mem_reverse] at h
  have h1 := List.dropWhile_subset (l := (cs.dropWhile isJsSpace).reverse) isJsSpace h
  rw [List.mem_reverse] at h1
  exact List.dropWhile_subset isJsSpace h1

/-! ## Fold-to-sum helpers -/

theorem parseLines_foldl (lines : List (List Char)) (a b : ℚ) :
    lines.foldl
      (fun acc line =>
        (⟨acc.rxBytes + (lineContrib line).1, acc.txBytes + (lineContrib line).2⟩ :
          ProcNetDevTotals))
      ⟨a, b⟩ =
      ⟨a + (lines.map (fun l => (lineContrib l).1)).sum,
       b + (lines.map (fun l => (lineContrib l).2)).sum⟩ := by
  induction lines generalizing a b with
  | nil => simp
  | cons l ls ih => simp [ih, add_assoc]

theorem parseLines_eq_sum (lines : List (List Char)) :
    parseLines lines =
      ⟨(lines.map (fun l => (lineContrib l).1)).sum,
       (lines.map (fun l => (lineContrib l).2)).sum⟩ := by
  rw [parseLines, parseLines_foldl]
  simp

theorem sum_map_filterMap {α β : Type} (g : α → Option β) (h : β → ℚ) (ls : List α) :
    ((ls.filterMap g).map h).sum =
      (ls.map (fun x => match g x with | some y => h y | none => 0)).sum := by
  induction ls with
  | nil => rfl
  | cons x ls ih => cases hg : g x <;> simp [List.filterMap_cons, hg, ih]

/-- The source's regex list agrees with the spec's wording of the exclusion
patterns, as a boolean test. -/
theorem isAllowedInterface_eq_not_excluded (n : List Char) :
    isAllowedInterface n = !excludedNameB n := by
  simp [isAllowedInterface, NETWORK_INTERFACE_EXCLUDES, excludedNameB, Bool.or_assoc]

/-- Per-line agreement between the source loop body and the claim-side
description: a line contributes its parsed field 0 / field 8 exactly when
`claimKeptFields` keeps it, and `(0, 0)` otherwise. -/
theorem lineContrib_eq_claimKept (line : List Char) :
    lineContrib line =
      (match claimKeptFields line with
       | some fs => (jsNumberOr0 (fs.getD 0 []), jsNumberOr0 (fs.getD 8 []))
       | none => (0, 0)) := by
  unfold lineContrib claimKeptFields
  by_cases ht : (trimList line).isEmpty
  · simp [ht]
  · simp only [ht, Bool.false_eq_true, if_false]
    cases hsp : splitOnPred (fun c => c == ':') (trimList line) with
    | nil => simp [contribOfParts]
    | cons a rest =>
      cases rest with
      | nil => simp [contribOfParts]
      | cons b rest2 =>
        simp only [contribOfParts]
        by_cases hb : b.isEmpty
        · simp [hb]
        · simp only [hb, Bool.false_eq_true, if_false, isAllowedInterface_eq_not_excluded,
            Bool.not_not]
          by_cases hex : excludedNameB (trimList a)
          · simp [hex]
          · simp only [hex, Bool.false_eq_true, if_false]
            by_cases hlen : (fieldsOf (trimList b)).length < 9 <;> simp [hlen]

/-- Claim C2: the parser excludes exactly the lines whose trimmed interface
name is `lo` or starts with `br-`, `docker`, `services`, or `veth` (first
conjunct: the source's regex list is that predicate), and its output is the
sum of parsed field 0 (rx) and field 8 (tx) over all remaining non-header,
non-skipped lines (second conjunct). -/
theorem parseProcNetDev_excludes_and_sums :
    (∀ name, isAllowedInterface name = true ↔
      ¬(name = "lo".data ∨ "br-".data <+: name ∨ "docker".data <+: name ∨
        "services".data <+: name ∨ "veth".data <+: name)) ∧
    ∀ content, parseProcNetDev content =
      ⟨(((dataLines content).filterMap claimKeptFields).map
          (fun fs => jsNumberOr0 (fs.getD 0 []))).sum,
       (((dataLines content).filterMap claimKeptFields).map
          (fun fs => jsNumberOr0 (fs.getD 8 []))).sum⟩ := by
  constructor
  · intro name
    rw [isAllowedInterface_eq_not_excluded]
    simp [excludedNameB, not_or, and_assoc, ← List.isPrefixOf_iff_prefix]
  · intro content
    have hpt1 : ∀ l, (lineContrib l).1 =
        (match claimKeptFields l with
         | some fs => jsNumberOr0 (fs.getD 0 [])
         | none => 0) := by
      intro l
      rw [lineContrib_eq_claimKept]
      cases claimKeptFields l <;> rfl
    have hpt2 : ∀ l, (lineContrib l).2 =
        (match claimKeptFields l with
         | some fs => jsNumberOr0 (fs.getD 8 [])
         | none => 0) := by
      intro l
      rw [lineContrib_eq_claimKept]
      cases claimKeptFields l <;> rfl
    rw [parseProcNetDev, parseLines_eq_sum, sum_map_filterMap, sum_map_filterMap]
    simp only [hpt1, hpt2]
    refine congrArg₂ ProcNetDevTotals.mk ?_ ?_ <;>
    · refine congrArg List.sum (List.map_congr_left fun l _ => ?_)
      cases claimKeptFields l <;> rfl

/-- Per-line agreement between the source loop body and the amended C7
description (field list ends at the second colon). -/
theorem splitOnPred_of_dropWhile_nil (p : Char → Bool) (cs : List Char)
    (hd : cs.dropWhile (fun c => !p c) = []) :
    splitOnPred p cs = [cs.takeWhile (fun c => !p c)] := by
  rw [splitOnPred_eq_cons, hd]

theorem splitOnPred_of_dropWhile_cons (p : Char → Bool) (cs : List Char) (d : Char)
    (r : List Char) (hd : cs.dropWhile (fun c => !p c) = d :: r) :
    splitOnPred p cs = cs.takeWhile (fun c => !p c) :: splitOnPred p r := by
  rw [splitOnPred_eq_cons, hd]

theorem lineContrib_eq_colonSegment (line : List Char) :
    lineContrib line = colonSegmentContrib line := by
  unfold lineContrib colonSegmentContrib
  by_cases ht : (trimList line).isEmpty
  · simp [ht]
  · simp only [ht, Bool.false_eq_true, if_false]
    cases hd : (trimList line).dropWhile (fun c => !(c == ':')) with
    | nil =>
      rw [splitOnPred_of_dropWhile_nil (fun c => c == ':') (trimList line) hd]
      rfl
    | cons d r =>
      rw [splitOnPred_of_dropWhile_cons (fun c => c == ':') (trimList line) d r hd,
        splitOnPred_eq_cons (fun c => c == ':') r]
      rfl

/-- Claim C7 as amended: for every input text the parser processes each
non-blank line after the first two by taking the segment before the first
colon as the interface name and the segment strictly between the first and
second colons as the field list (so a second colon truncates the fields);
lines with no colon, an empty such segment, or fewer than 9 fields are
skipped, and non-numeric fields contribute 0 via the shared field parser. -/
theorem parseProcNetDev_colon_segment_refinement :
    ∀ content, parseProcNetDev content = parseByColonSegments content := by
  intro content
  rw [parseProcNetDev, parseLines, parseByColonSegments,
    funext lineContrib_eq_colonSegment]

/-! ## Non-negative totals on minus-free inputs -/

theorem applyExp_nonneg (q : ℚ) (e : ℤ) (hq : 0 ≤ q) : 0 ≤ applyExp q e := by
  unfold applyExp
  split
  · positivity
  · positivity

theorem jsNumberBody_nonneg (cs : List Char) (q : ℚ) (h : jsNumberBody cs = some q) :
    0 ≤ q := by
  simp only [jsNumberBody] at h
  split at h
  · split at h
    · exact absurd h (by simp)
    · have h2 := Option.some.inj h
      subst h2
      positivity
  · split at h
    · exact absurd h (by simp)
    · split at h
      · have h2 := Option.some.inj h
        subst h2
        positivity
      · rename_i r4 heq
        cases hp : parseExp r4 with
        | none => rw [hp] at h; exact absurd h (by simp)
        | some e =>
          rw [hp] at h
          have h2 := Option.some.inj h
          subst h2
          exact applyExp_nonneg _ e (by positivity)
      · rename_i r4 heq
        cases hp : parseExp r4 with
        | none => rw [hp] at h; exact absurd h (by simp)
        | some e =>
          rw [hp] at h
          have h2 := Option.some.inj h
          subst h2
          exact applyExp_nonneg _ e (by positivity)
      · exact absurd h (by simp)
  · rename_i r4 heq
    split at h
    · exact absurd h (by simp)
    · cases hp : parseExp r4 with
      | none => rw [hp] at h; exact absurd h (by simp)
      | some e =>
        rw [hp] at h
        have h2 := Option.some.inj h
        subst h2
        exact applyExp_nonneg _ e (by positivity)
  · rename_i r4 heq
    split at h
    · exact absurd h (by simp)
    · cases hp : parseExp r4 with
      | none => rw [hp] at h; exact absurd h (by simp)
      | some e =>
        rw [hp] at h
        have h2 := Option.some.inj h
        subst h2
        exact applyExp_nonneg _ e (by positivity)
  · exact absurd h (by simp)

theorem jsNumberOr0_nonneg_of_no_minus (cs : List Char) (h : ∀ c ∈ cs, c ≠ '-') :
    0 ≤ jsNumberOr0 cs := by
  have htr : ∀ c ∈ trimList cs, c ≠ '-' :=
    fun c hc => h c (mem_of_mem_trimList cs c hc)
  simp only [jsNumberOr0, jsNumber?]
  split
  · simp
  · rename_i r heq
    cases hb : jsNumberBody r with
    | none => simp
    | some q => simpa using jsNumberBody_nonneg r q hb
  · rename_i r heq
    exact absurd rfl (htr '-' (heq ▸ List.mem_cons_self '-' r))
  · cases hb : jsNumberBody (trimList cs) with
    | none => simp
    | some q => simpa using jsNumberBody_nonneg _ q hb

theorem mem_of_mem_fieldsOf (d : List Char) (f : List Char) (hf : f ∈ fieldsOf d)
    (c : Char) (hc : c ∈ f) : c ∈ d := by
  unfold fieldsOf at hf
  by_cases hd : d.isEmpty
  · rw [if_pos hd] at hf
    simp at hf
    subst hf
    simp at hc
  · rw [if_neg hd] at hf
    exact mem_of_mem_splitOnPred isJsSpace d f (List.mem_filter.1 hf).1 c hc

theorem getD_mem_of_lt {α : Type} (l : List α) (n : ℕ) (d : α) (h : n < l.length) :
    l.getD n d ∈ l := by
  rw [List.getD_eq_getElem?_getD, List.getElem?_eq_getElem h]
  exact List.getElem_mem h

theorem contribOfParts_nonneg_of_no_minus (parts : List (List Char))
    (h : ∀ l ∈ parts, ∀ c ∈ l, c ≠ '-') :
    0 ≤ (contribOfParts parts).1 ∧ 0 ≤ (contribOfParts parts).2 := by
  unfold contribOfParts
  split
  · rename_i rawName rawData rest
    have hdata : ∀ c ∈ rawData, c ≠ '-' :=
      h rawData (List.mem_cons_of_mem rawName (List.mem_cons_self rawData rest))
    split
    · exact ⟨le_refl 0, le_refl 0⟩
    · dsimp only
      split
      · exact ⟨le_refl 0, le_refl 0⟩
      · split
        · exact ⟨le_refl 0, le_refl 0⟩
        · have hfield : ∀ n : ℕ, ∀ c ∈ (fieldsOf (trimList rawData)).getD n [],
              c ≠ '-' := by
            intro n c hc
            by_cases hn : n < (fieldsOf (trimList rawData)).length
            · exact hdata c (mem_of_mem_trimList rawData c
                (mem_of_mem_fieldsOf (trimList rawData) _
                  (getD_mem_of_lt _ n [] hn) c hc))
            · rw [List.getD_eq_getElem?_getD, List.getElem?_eq_none (by omega)] at hc
              simp at hc
          exact ⟨jsNumberOr0_nonneg_of_no_minus _ (hfield 0),
            jsNumberOr0_nonneg_of_no_minus _ (hfield 8)⟩
  · exact ⟨le_refl 0, le_refl 0⟩

theorem lineContrib_nonneg_of_no_minus (line : List Char) (h : ∀ c ∈ line, c ≠ '-') :
    0 ≤ (lineContrib line).1 ∧ 0 ≤ (lineContrib line).2 := by
  unfold lineContrib
  by_cases ht : (trimList line).isEmpty
  · rw [if_pos ht]
    exact ⟨le_refl 0, le_refl 0⟩
  · rw [if_neg ht]
    refine contribOfParts_nonneg_of_no_minus _ (fun l hl c hc => ?_)
    exact h c (mem_of_mem_trimList line c
      (mem_of_mem_splitOnPred _ (trimList line) l hl c hc))

/-- Claim C8 as amended: for every input text containing no minus-sign
character, the parser's `rxBytes` and `txBytes` are each `≥ 0`: every
minus-free field token parses to a non-negative value (a `NaN` parse
contributes `0`, and the non-finite values JavaScript produces for the
`Infinity` literal or an overflowing numeral are also non-negative), and
sums of non-negative values stay non-negative.  The original unconditional
claim fails on a negative numeral (see the counterexample), and
integrality is not claimed: a fractional numeral contributes a fraction,
and the `Infinity` literal or an overflowing numeral makes the real
outputs non-finite rather than integral. -/
theorem parseProcNetDev_nonneg_of_no_minus (content : String)
    (h : ∀ c ∈ content.data, c ≠ '-') :
    0 ≤ (parseProcNetDev content).rxBytes ∧ 0 ≤ (parseProcNetDev content).txBytes := by
  have hline : ∀ l ∈ dataLines content, ∀ c ∈ l, c ≠ '-' := by
    intro l hl c hc
    have hl2 : l ∈ splitOnPred (fun c => c == '\n') content.data :=
      List.drop_subset 2 _ hl
    exact h c (mem_of_mem_splitOnPred _ content.data l hl2 c hc)
  rw [parseProcNetDev, parseLines_eq_sum]
  constructor
  · apply List.sum_nonneg
    intro x hx
    obtain ⟨l, hl, rfl⟩ := List.mem_map.1 hx
    exact (lineContrib_nonneg_of_no_minus l (hline l hl)).1
  · apply List.sum_nonneg
    intro x hx
    obtain ⟨l, hl, rfl⟩ := List.mem_map.1 hx
    exact (lineContrib_nonneg_of_no_minus l (hline l hl)).2

/-- Witness for the amended C8 at a concrete counter file. -/
theorem parseProcNetDev_nonneg_of_no_minus_witness :
    0 ≤ (parseProcNetDev "h\nh\neth0: 1 2 3 4 5 6 7 8 9").rxBytes ∧
    0 ≤ (parseProcNetDev "h\nh\neth0: 1 2 3 4 5 6 7 8 9").txBytes :=
  parseProcNetDev_nonneg_of_no_minus "h\nh\neth0: 1 2 3 4 5 6 7 8 9" (by decide)

/-! ## Appending a well-formed data line -/

theorem splitOnPred_append_sep (p : Char → Bool) (s : Char) (hs : p s = true)
    (bs : List Char) :
    ∀ as : List Char, (∀ c ∈ as, p c = false) →
      splitOnPred p (as ++ s :: bs) = as :: splitOnPred p bs := by
  intro as
  induction as with
  | nil => intro _; simp [splitOnPred, hs]
  | cons c t ih =>
    intro ha
    have hc : p c = false := ha c (by simp)
    simp only [List.cons_append, splitOnPred, hc, Bool.false_eq_true, if_false, List.append_eq]
    rw [ih (fun x hx => ha x (List.mem_cons_of_mem c hx))]

theorem dropWhile_eq_self_of_head (p : Char → Bool) (cs : List Char)
    (h : ∀ c ∈ cs.take 1, p c = false) : cs.dropWhile p = cs := by
  cases cs with
  | nil => rfl
  | cons a t =>
    have ha := h a (by simp)
    rw [List.dropWhile_cons, if_neg (by simp [ha])]

theorem trimList_eq_self_of_ends (cs : List Char)
    (h1 : ∀ c ∈ cs.take 1, isJsSpace c = false)
    (h2 : ∀ c ∈ cs.reverse.take 1, isJsSpace c = false) :
    trimList cs = cs := by
  unfold trimList
  rw [dropWhile_eq_self_of_head _ _ h1, dropWhile_eq_self_of_head _ _ h2,
    List.reverse_reverse]

theorem trimList_eq_self_of_all (cs : List Char)
    (h : ∀ c ∈ cs, isJsSpace c = false) : trimList cs = cs :=
  trimList_eq_self_of_ends cs
    (fun c hc => h c (List.take_subset 1 cs hc))
    (fun c hc => h c (List.mem_reverse.1 (List.take_subset 1 cs.reverse hc)))

theorem mem_joinSpace (fs : List (List Char)) (c : Char) (hc : c ∈ joinSpace fs) :
    c = ' ' ∨ ∃ f ∈ fs, c ∈ f := by
  induction fs with
  | nil => simp [joinSpace] at hc
  | cons f rest ih =>
    cases rest with
    | nil => exact Or.inr ⟨f, by simp, by simpa [joinSpace] using hc⟩
    | cons g t =>
      rw [joinSpace] at hc
      rcases List.mem_append.1 hc with hf | hrest
      · exact Or.inr ⟨f, by simp, hf⟩
      · rcases List.mem_cons.1 hrest with rfl | hJ
        · exact Or.inl rfl
        · rcases ih hJ with h' | ⟨f', hf', hcf'⟩
          · exact Or.inl h'
          · exact Or.inr ⟨f', List.mem_cons_of_mem f hf', hcf'⟩

theorem joinSpace_ne_nil (fs : List (List Char)) (hfs : fs ≠ [])
    (h : ∀ f ∈ fs, f ≠ []) : joinSpace fs ≠ [] := by
  cases fs with
  | nil => exact absurd rfl hfs
  | cons f rest =>
    cases rest with
    | nil => simpa [joinSpace] using h f (by simp)
    | cons g t =>
      rw [joinSpace]
      intro heq
      rcases List.append_eq_nil.1 heq with ⟨-, h2⟩
      exact absurd h2 (by simp)

theorem joinSpace_reverse_cons (fs : List (List Char)) :
    fs ≠ [] → (∀ f ∈ fs, f ≠ [] ∧ ∀ c ∈ f, isJsSpace c = false) →
      ∃ c t, (joinSpace fs).reverse = c :: t ∧ isJsSpace c = false := by
  induction fs with
  | nil => intro h; exact absurd rfl h
  | cons f rest ih =>
    intro _ hall
    cases rest with
    | nil =>
      obtain ⟨hne, hcs⟩ := hall f (by simp)
      cases hrev : f.reverse with
      | nil => exact absurd (List.reverse_eq_nil_iff.1 hrev) hne
      | cons c t =>
        refine ⟨c, t, by simpa [joinSpace] using hrev, ?_⟩
        exact hcs c (List.mem_reverse.1 (hrev ▸ List.mem_cons_self c t))
    | cons g t' =>
      obtain ⟨c, t, hJ, hc⟩ := ih (by simp) (fun x hx => hall x (List.mem_cons_of_mem f hx))
      refine ⟨c, t ++ [' '] ++ f.reverse, ?_, hc⟩
      rw [joinSpace, List.reverse_append, List.reverse_cons, hJ]
      simp

theorem filter_splitOnPred_joinSpace (fs : List (List Char))
    (h : ∀ f ∈ fs, f ≠ [] ∧ ∀ c ∈ f, isJsSpace c = false) :
    (splitOnPred isJsSpace (joinSpace fs)).filter (fun t => !t.isEmpty) = fs := by
  induction fs with
  | nil => simp [joinSpace, splitOnPred, List.filter]
  | cons f rest ih =>
    have hne : f ≠ [] := (h f (by simp)).1
    have hcl : ∀ c ∈ f, isJsSpace c = false := (h f (by simp)).2
    cases rest with
    | nil =>
      rw [show joinSpace [f] = f from rfl, splitOnPred_all_false _ _ hcl]
      simp [List.filter_cons, List.isEmpty_iff, hne]
    | cons g t =>
      rw [joinSpace, splitOnPred_append_sep isJsSpace ' ' (by decide) _ f hcl]
      rw [List.filter_cons]
      have hrest := ih (fun x hx => h x (List.mem_cons_of_mem f hx))
      simp only [hrest]
      rw [if_pos (by simpa [List.isEmpty_iff] using hne)]

theorem fieldsOf_joinSpace (fs : List (List Char)) (hfs : fs ≠ [])
    (h : ∀ f ∈ fs, f ≠ [] ∧ ∀ c ∈ f, isJsSpace c = false) :
    fieldsOf (joinSpace fs) = fs := by
  unfold fieldsOf
  rw [if_neg (by simpa [List.isEmpty_iff] using
    joinSpace_ne_nil fs hfs (fun f hf => (h f hf).1))]
  exact filter_splitOnPred_joinSpace fs h

theorem joinSpace_take1 (fs : List (List Char))
    (h : ∀ f ∈ fs, f ≠ [] ∧ ∀ c ∈ f, isJsSpace c = false) :
    ∀ c ∈ (joinSpace fs).take 1, isJsSpace c = false := by
  intro c hc
  cases fs with
  | nil => simp [joinSpace] at hc
  | cons f rest =>
    obtain ⟨hne, hcl⟩ := h f (by simp)
    cases f with
    | nil => exact absurd rfl hne
    | cons a f' =>
      cases rest with
      | nil =>
        simp [joinSpace] at hc
        subst hc
        exact hcl _ (by simp)
      | cons g t =>
        simp [joinSpace] at hc
        subst hc
        exact hcl _ (by simp)

theorem lineContrib_mkLine (name : List Char) (fs : List (List Char))
    (hname : ∀ c ∈ name, isJsSpace c = false ∧ c ≠ ':')
    (hallowed : isAllowedInterface name = true)
    (hfs : ∀ f ∈ fs, f ≠ [] ∧ ∀ c ∈ f, isJsSpace c = false ∧ c ≠ ':')
    (hlen : 9 ≤ fs.length) :
    lineContrib (name ++ ':' :: joinSpace fs) =
      (jsNumberOr0 (fs.getD 0 []), jsNumberOr0 (fs.getD 8 [])) := by
  have hfs' : ∀ f ∈ fs, f ≠ [] ∧ ∀ c ∈ f, isJsSpace c = false :=
    fun f hf => ⟨(hfs f hf).1, fun c hc => ((hfs f hf).2 c hc).1⟩
  have hfsne : fs ≠ [] := by
    intro h
    rw [h] at hlen
    simp at hlen
  have hJne : joinSpace fs ≠ [] := joinSpace_ne_nil fs hfsne (fun f hf => (hfs' f hf).1)
  obtain ⟨cJ, tJ, hJrev, hcJ⟩ := joinSpace_reverse_cons fs hfsne hfs'
  have hJcolon : ∀ c ∈ joinSpace fs, ((c == ':') : Bool) = false := by
    intro c hc
    rcases mem_joinSpace fs c hc with rfl | ⟨f, hf, hcf⟩
    · decide
    · simpa using ((hfs f hf).2 c hcf).2
  have htrim : trimList (name ++ ':' :: joinSpace fs) = name ++ ':' :: joinSpace fs := by
    apply trimList_eq_self_of_ends
    · intro c hc
      cases name with
      | nil =>
        simp at hc
        subst hc
        decide
      | cons a n' =>
        simp at hc
        subst hc
        exact (hname _ (by simp)).1
    · intro c hc
      rw [List.reverse_append, List.reverse_cons, hJrev] at hc
      simp at hc
      subst hc
      exact hcJ
  have htJ : trimList (joinSpace fs) = joinSpace fs := by
    apply trimList_eq_self_of_ends
    · exact joinSpace_take1 fs hfs'
    · intro c hc
      rw [hJrev] at hc
      simp at hc
      subst hc
      exact hcJ
  simp only [lineContrib]
  rw [htrim]
  rw [if_neg (by simp [List.isEmpty_iff])]
  rw [splitOnPred_append_sep (fun c => c == ':') ':' rfl _ name
      (fun c hc => by simpa using (hname c hc).2),
    splitOnPred_all_false _ _ hJcolon]
  simp only [contribOfParts]
  rw [if_neg (by simp [List.isEmpty_iff, hJne])]
  rw [trimList_eq_self_of_all name (fun c hc => (hname c hc).1), hallowed]
  simp only [Bool.not_true, Bool.false_eq_true, if_false]
  rw [htJ, fieldsOf_joinSpace fs hfsne hfs']
  rw [if_neg (by omega)]

theorem drop2_append_single {α : Type} (S : List α) (x : α) (h : 2 ≤ S.length) :
    (S ++ [x]).drop 2 = S.drop 2 ++ [x] := by
  cases S with
  | nil => simp at h
  | cons a S' =>
    cases S' with
    | nil => simp at h
    | cons b t => rfl

theorem dataLines_append (content : String) (L : List Char)
    (hL : ∀ c ∈ L, ((c == '\n') : Bool) = false)
    (hh : 2 ≤ (splitOnPred (fun c => c == '\n') content.data).length) :
    dataLines (content ++ "\n" ++ String.mk L) = dataLines content ++ [L] := by
  unfold dataLines
  have hdata : (content ++ "\n" ++ String.mk L).data = content.data ++ '\n' :: L := by
    rw [String.data_append, String.data_append, List.append_assoc]
    rfl
  rw [hdata, splitOnPred_append_last (fun c => c == '\n') '\n' rfl L hL content.data,
    drop2_append_single _ _ hh]

theorem parseLines_append_single (ls : List (List Char)) (L : List Char) :
    parseLines (ls ++ [L]) =
      ⟨(parseLines ls).rxBytes + (lineContrib L).1,
       (parseLines ls).txBytes + (lineContrib L).2⟩ := by
  rw [parseLines_eq_sum, parseLines_eq_sum]
  simp [List.map_append, List.sum_append]

theorem getD_map_of_lt {α β : Type} (f : α → β) (l : List α) (n : ℕ) (da : α) (db : β)
    (h : n < l.length) : (l.map f).getD n db = f (l.getD n da) := by
  rw [List.getD_eq_getElem?_getD, List.getD_eq_getElem?_getD, List.getElem?_map,
    List.getElem?_eq_getElem h]
  rfl

/-- Claim C10: appending to a counter text (that already has its two header
lines) one data line for an allowed interface whose fields are at least 9
non-negative numbers adds exactly that line's field 0 to `rxBytes` and
field 8 to `txBytes`; in particular the totals never decrease.  The
appended line is `name ++ ":" ++ fields joined by single spaces`, with the
name and field tokens free of whitespace, colons and newlines, and every
field parsing to a non-negative integer (`vals`). -/
theorem parseProcNetDev_append_allowed_line
    (content : String) (name : List Char) (fields : List (List Char)) (vals : List ℕ)
    (hheaders : 2 ≤ (splitOnPred (fun c => c == '\n') content.data).length)
    (hname : ∀ c ∈ name, isJsSpace c = false ∧ c ≠ ':' ∧ c ≠ '\n')
    (hallowed : isAllowedInterface name = true)
    (hfields : ∀ f ∈ fields, f ≠ [] ∧ ∀ c ∈ f, isJsSpace c = false ∧ c ≠ ':' ∧ c ≠ '\n')
    (hlen : 9 ≤ fields.length)
    (hvals : fields.map jsNumberOr0 = vals.map (fun n : ℕ => (n : ℚ))) :
    parseProcNetDev (content ++ "\n" ++ String.mk (name ++ ':' :: joinSpace fields)) =
      ⟨(parseProcNetDev content).rxBytes + (vals.getD 0 0 : ℕ),
       (parseProcNetDev content).txBytes + (vals.getD 8 0 : ℕ)⟩ ∧
    (parseProcNetDev content).rxBytes ≤
      (parseProcNetDev (content ++ "\n" ++ String.mk (name ++ ':' :: joinSpace fields))).rxBytes ∧
    (parseProcNetDev content).txBytes ≤
      (parseProcNetDev (content ++ "\n" ++ String.mk (name ++ ':' :: joinSpace fields))).txBytes := by
  have hvlen : fields.length = vals.length := by
    have h := congrArg List.length hvals
    rwa [List.length_map, List.length_map] at h
  have hL : ∀ c ∈ name ++ ':' :: joinSpace fields, ((c == '\n') : Bool) = false := by
    intro c hc
    rcases List.mem_append.1 hc with hn | hr
    · simpa using (hname c hn).2.2
    · rcases List.mem_cons.1 hr with rfl | hj
      · decide
      · rcases mem_joinSpace fields c hj with rfl | ⟨f, hf, hcf⟩
        · decide
        · simpa using ((hfields f hf).2 c hcf).2.2
  have hcontrib : lineContrib (name ++ ':' :: joinSpace fields) =
      (jsNumberOr0 (fields.getD 0 []), jsNumberOr0 (fields.getD 8 [])) :=
    lineContrib_mkLine name fields
      (fun c hc => ⟨(hname c hc).1, (hname c hc).2.1⟩) hallowed
      (fun f hf => ⟨(hfields f hf).1,
        fun c hc => ⟨((hfields f hf).2 c hc).1, ((hfields f hf).2 c hc).2.1⟩⟩) hlen
  have hget0 : jsNumberOr0 (fields.getD 0 []) = ((vals.getD 0 0 : ℕ) : ℚ) := by
    rw [← getD_map_of_lt jsNumberOr0 fields 0 [] 0 (by omega), hvals,
      getD_map_of_lt (fun n : ℕ => (n : ℚ)) vals 0 0 0 (by omega)]
  have hget8 : jsNumberOr0 (fields.getD 8 []) = ((vals.getD 8 0 : ℕ) : ℚ) := by
    rw [← getD_map_of_lt jsNumberOr0 fields 8 [] 0 (by omega), hvals,
      getD_map_of_lt (fun n : ℕ => (n : ℚ)) vals 8 0 0 (by omega)]
  have heq : parseProcNetDev (content ++ "\n" ++ String.mk (name ++ ':' :: joinSpace fields)) =
      ⟨(parseProcNetDev content).rxBytes + (vals.getD 0 0 : ℕ),
       (parseProcNetDev content).txBytes + (vals.getD 8 0 : ℕ)⟩ := by
    rw [parseProcNetDev, dataLines_append content _ hL hheaders, parseLines_append_single,
      hcontrib, ← parseProcNetDev, hget0, hget8]
  refine ⟨heq, ?_, ?_⟩
  · rw [heq]
    exact le_add_of_nonneg_right (by positivity)
  · rw [heq]
    exact le_add_of_nonneg_right (by positivity)

/-- Witness for C10: appending `eth0:1 2 3 4 5 6 7 8 9` to a two-line
header adds 1 to `rxBytes` and 9 to `txBytes`. -/
theorem parseProcNetDev_append_allowed_line_witness :
    parseProcNetDev ("A\nB" ++ "\n" ++ String.mk ("eth0".data ++ ':' ::
        joinSpace ["1".data, "2".data, "3".data, "4".data, "5".data, "6".data, "7".data,
          "8".data, "9".data])) =
      ⟨(parseProcNetDev "A\nB").rxBytes + (([1, 2, 3, 4, 5, 6, 7, 8, 9].getD 0 0 : ℕ) : ℚ),
       (parseProcNetDev "A\nB").txBytes + (([1, 2, 3, 4, 5, 6, 7, 8, 9].getD 8 0 : ℕ) : ℚ)⟩ := by
  have h := parseProcNetDev_append_allowed_line "A\nB" "eth0".data
    ["1".data, "2".data, "3".data, "4".data, "5".data, "6".data, "7".data, "8".data, "9".data]
    [1, 2, 3, 4, 5, 6, 7, 8, 9]
    (by decide) (by decide) (by decide) (by decide) (by decide) (by decide)
  exact h.1
